import Mathlib

/-!
Verification of the website crawler in `src/crawler.py` (class `WebsiteCrawler`).

The development has three layers:
1. an executable model of the parts of Python's `urllib.parse` that the
   crawler uses (`urlparse`, `urljoin`, `urlunparse`), translated from the
   CPython implementation;
2. an executable model of `WebsiteCrawler` itself, with the network
   (`requests.get` plus the HTML parsing libraries `trafilatura` and
   `BeautifulSoup`) abstracted by an oracle `net : String → FetchOutcome`
   whose `Html` value records exactly what those libraries would return;
3. theorems about the model.

The crawler is single-threaded in the source (`crawl` never spawns a
thread; `crawl_worker` runs on the calling thread), so the model is a
deterministic state-passing program.  Wall-clock time is modelled as a
`Nat` counter advanced by the fetch durations chosen by the oracle and by
the politeness delay.  The source's `while` loops are modelled with a
fuel parameter; all universal theorems quantify over the fuel.
-/

namespace WebSage

/-! ### List-level string utilities used by the `urllib.parse` model -/

/-- Split at the first occurrence of `c`: returns the part before it and,
when `c` occurs, the part after it (Python `s.split(c, 1)` / `s.find(c)`). -/
def splitOnFirst (c : Char) : List Char → List Char × Option (List Char)
  | [] => ([], none)
  | x :: xs =>
    if x = c then ([], some xs)
    else
      let (a, o) := splitOnFirst c xs
      (x :: a, o)

/-- Split at the last occurrence of `'/'`: returns the parts before and
after it, or `none` when there is no slash (Python `s.rfind('/')`). -/
def lastSlashSplit : List Char → Option (List Char × List Char)
  | [] => none
  | x :: xs =>
    match lastSlashSplit xs with
    | some (a, b) => some (x :: a, b)
    | none => if x = '/' then some ([], xs) else none

/-- Take characters up to the first of `'/'`, `'?'`, `'#'`; return the
taken part and the rest (CPython `_splitnetloc`). -/
def netlocSpan : List Char → List Char × List Char
  | [] => ([], [])
  | x :: xs =>
    if x = '/' ∨ x = '?' ∨ x = '#' then ([], x :: xs)
    else
      let (a, r) := netlocSpan xs
      (x :: a, r)

/-- Python `s.split(sep)` for a single-character separator. -/
def splitChar (c : Char) : List Char → List (List Char)
  | [] => [[]]
  | x :: xs =>
    if x = c then [] :: splitChar c xs
    else
      match splitChar c xs with
      | [] => [[x]]
      | h :: t => (x :: h) :: t

/-- Python `sep.join(parts)` for a single-character separator. -/
def joinChar (c : Char) : List (List Char) → List Char
  | [] => []
  | [x] => x
  | x :: xs => x ++ c :: joinChar c xs

/-! ### The `urllib.parse` model -/

/-- Characters allowed in a URL scheme after the first one
(CPython `scheme_chars`). -/
def schemeChar (c : Char) : Bool :=
  c.isAlpha || c.isDigit || c == '+' || c == '-' || c == '.'

/-- CPython's validity test for the text before the first `':'` to count
as a scheme: non-empty, starts with a letter, made of scheme characters. -/
def validScheme : List Char → Bool
  | [] => false
  | c :: cs => c.isAlpha && (c :: cs).all schemeChar

/-- Scheme detection of CPython `urlsplit`: split at the first `':'`; when
the part before it is a valid scheme, the (lowercased) scheme and the rest,
otherwise no scheme and the whole input. -/
def schemeSplit (l : List Char) : List Char × List Char :=
  match splitOnFirst ':' l with
  | (_, none) => ([], l)
  | (pre, some rest) =>
    if validScheme pre then (pre.map Char.toLower, rest) else ([], l)

/-- Netloc detection of CPython `urlsplit`: when the input starts with
`"//"`, the netloc runs up to the first of `'/'`, `'?'`, `'#'`. -/
def netlocSplit (l : List Char) : List Char × List Char :=
  match l with
  | a :: b :: rest => if a = '/' ∧ b = '/' then netlocSpan rest else ([], l)
  | _ => ([], l)

/-- CPython `_splitparams`: split the path's parameters at the first `';'`
occurring after the last `'/'` (or anywhere when there is no slash). -/
def splitparams (l : List Char) : List Char × List Char :=
  match lastSlashSplit l with
  | some (a, seg) =>
    match splitOnFirst ';' seg with
    | (_, none) => (l, [])
    | (s1, some s2) => (a ++ '/' :: s1, s2)
  | none =>
    match splitOnFirst ';' l with
    | (s1, some s2) => (s1, s2)
    | (_, none) => (l, [])

/-- Result of `urllib.parse.urlparse` (a 6-tuple in Python). -/
structure ParseResult where
  scheme : String
  netloc : String
  path : String
  params : String
  query : String
  fragment : String
deriving DecidableEq

/-- Schemes for which CPython `urlparse` splits path parameters
(CPython `uses_params`). -/
def usesParams : List String :=
  ["", "ftp", "hdl", "prospero", "http", "imap", "https", "shttp", "rtsp",
   "rtspu", "sip", "sips", "mms", "sftp", "tel"]

/-- Schemes that allow relative joining (CPython `uses_relative`). -/
def usesRelative : List String :=
  ["", "ftp", "http", "gopher", "nntp", "imap", "wais", "file", "https",
   "shttp", "mms", "prospero", "rtsp", "rtspu", "sftp", "svn", "svn+ssh",
   "ws", "wss"]

/-- Schemes that carry a network location (CPython `uses_netloc`). -/
def usesNetloc : List String :=
  ["", "ftp", "http", "gopher", "nntp", "telnet", "imap", "wais", "file",
   "mms", "https", "shttp", "snews", "prospero", "rtsp", "rtspu", "rsync",
   "svn", "svn+ssh", "sftp", "nfs", "git", "git+ssh", "ws", "wss"]

/-- `urllib.parse.urlparse url` with default scheme `default` (CPython
`urlsplit` followed by the `uses_params` parameter split).  Stage order as
in CPython: scheme, then netloc, then fragment, then query, then params. -/
def urlparse (url : String) (default : String) : ParseResult :=
  let s1 := schemeSplit url.data
  let sch := if s1.1 = [] then default.data else s1.1
  let s2 := netlocSplit s1.2
  let s3 := splitOnFirst '#' s2.2
  let s4 := splitOnFirst '?' s3.1
  let s5 :=
    if (⟨sch⟩ : String) ∈ usesParams ∧ s4.1.contains ';' then splitparams s4.1
    else (s4.1, [])
  ⟨⟨sch⟩, ⟨s2.1⟩, ⟨s5.1⟩, ⟨s5.2⟩, ⟨s4.2.getD []⟩, ⟨s3.2.getD []⟩⟩

/-- `urllib.parse.urlunsplit`. -/
def urlunsplit (scheme netloc url query fragment : String) : String :=
  let url1 :=
    if netloc ≠ "" ∨ (url ≠ "" ∧ url.data.take 2 = ['/', '/']) then
      let u2 := if url ≠ "" ∧ url.data.take 1 ≠ ['/'] then "/" ++ url else url
      "//" ++ netloc ++ u2
    else url
  let url2 := if scheme ≠ "" then scheme ++ ":" ++ url1 else url1
  let url3 := if query ≠ "" then url2 ++ "?" ++ query else url2
  if fragment ≠ "" then url3 ++ "#" ++ fragment else url3

/-- `urllib.parse.urlunparse`. -/
def urlunparse (scheme netloc url params query fragment : String) : String :=
  let url' := if params ≠ "" then url ++ ";" ++ params else url
  urlunsplit scheme netloc url' query fragment

/-- Keep the first and last element; drop empty strings in between
(CPython `segments[1:-1] = filter(None, segments[1:-1])` in `urljoin`). -/
def filterMiddle (l : List (List Char)) : List (List Char) :=
  match l with
  | [] => []
  | [x] => [x]
  | x :: xs => x :: (xs.dropLast.filter (fun s => !s.isEmpty)) ++ xs.drop (xs.length - 1)

/-- `urllib.parse.urljoin`, translated from the CPython implementation. -/
def urljoin (base url : String) : String :=
  if base = "" then url
  else if url = "" then base
  else
    let b := urlparse base ""
    let u := urlparse url b.scheme
    if u.scheme ≠ b.scheme ∨ u.scheme ∉ usesRelative then url
    else
      let (earlyNetloc, netloc) :=
        if u.scheme ∈ usesNetloc then
          if u.netloc ≠ "" then (true, u.netloc) else (false, b.netloc)
        else (false, u.netloc)
      if earlyNetloc then
        urlunparse u.scheme u.netloc u.path u.params u.query u.fragment
      else if u.path = "" ∧ u.params = "" then
        let q := if u.query = "" then b.query else u.query
        urlunparse u.scheme netloc b.path b.params q u.fragment
      else
        let baseParts0 := splitChar '/' b.path.data
        let baseParts :=
          if baseParts0.getLast? ≠ some [] then baseParts0.dropLast else baseParts0
        let segments :=
          if u.path.data.take 1 = ['/'] then splitChar '/' u.path.data
          else filterMiddle (baseParts ++ splitChar '/' u.path.data)
        let resolved := segments.foldl
          (fun acc seg =>
            if seg = ['.', '.'] then acc.dropLast
            else if seg = ['.'] then acc
            else acc ++ [seg]) []
        let resolved :=
          if segments.getLast? = some ['.'] ∨ segments.getLast? = some ['.', '.'] then
            resolved ++ [[]]
          else resolved
        let joined := joinChar '/' resolved
        let path := if joined = [] then "/" else (⟨joined⟩ : String)
        urlunparse u.scheme netloc path u.params u.query u.fragment

/-! ### The crawler model (`src/crawler.py`, class `WebsiteCrawler`)

The HTML-processing libraries are abstracted: an `Html` value records what
`trafilatura.extract`, BeautifulSoup's `get_text` (after script/style
removal), the `<title>` lookup, and the `<a href>` scan would return for
the fetched document.  An extraction exception in the source makes
`extract_text_content` return `""`; that behaviour is representable by
`trafText = some ""` (or an empty `soupText`), so the libraries are
modelled as total. -/

/-- What the HTML libraries would report about a fetched document. -/
structure Html where
  trafText : Option String
  soupText : String
  titleText : Option String
  hrefs : List String
deriving DecidableEq

/-- Outcome of one HTTP GET (after the source's SSL retry policy): either
the response document or a `requests.RequestException`.  `dur` is the
wall-clock duration of the request in abstract time units. -/
inductive FetchOutcome where
  | ok (html : Html) (dur : Nat)
  | err (msg : String) (dur : Nat)
deriving DecidableEq

/-- One crawled page, the dict appended to `self.pages`. -/
structure Page where
  url : String
  title : String
  content : String
deriving DecidableEq

/-- One queue entry `(url, depth, base_url)`. -/
structure WorkItem where
  url : String
  depth : Nat
  base : String
deriving DecidableEq

/-- Constructor arguments of `WebsiteCrawler.__init__`. -/
structure CrawlConfig where
  max_depth : Nat
  max_pages : Nat
  request_delay : Nat
  timeout : Nat

/-- Mutable state of one `crawl` call.  `popTrace` and `enqTrace` are
ghost instrumentation recording every queue pop (with the wall-clock time
at which it happened) and every queue put, in order; they never influence
control flow. -/
structure CrawlState where
  visited : List String
  pages : List Page
  queue : List WorkItem
  now : Nat
  popTrace : List (WorkItem × Nat)
  enqTrace : List WorkItem

/-- Python `a or b` on strings: `b` when `a` is empty. -/
def pyOr (a b : String) : String := if a = "" then b else a

/-- `WebsiteCrawler.is_valid_url` (crawler.py lines 34-40). -/
def is_valid_url (url base_domain : String) : Bool :=
  let parsed_url := urlparse url ""
  let parsed_base := urlparse base_domain ""
  parsed_url.netloc != "" && parsed_url.netloc == parsed_base.netloc

/-- The canonicalization of crawler.py lines 77-78:
`f"{scheme}://{netloc}{path}"` of the parsed URL (fragment, query and
params are dropped). -/
def clean_url (u : String) : String :=
  let parsed_url := urlparse u ""
  parsed_url.scheme ++ "://" ++ parsed_url.netloc ++ parsed_url.path

/-- `WebsiteCrawler.extract_text_content` (lines 42-62): `trafilatura`
first, BeautifulSoup text as fallback when it returns `None`. -/
def extract_text_content (url : String) (h : Html) : String :=
  match h.trafText with
  | some t => t
  | none => h.soupText

/-- `WebsiteCrawler._extract_title` (lines 146-150). -/
def extract_title (h : Html) : String :=
  match h.titleText with
  | some t => t
  | none => "No Title"

/-- `WebsiteCrawler.extract_links` (lines 64-81): resolve each href
against `base_url`, keep it when `is_valid_url` accepts it, canonicalize
with `clean_url`. -/
def extract_links (base_url : String) (h : Html) : List String :=
  h.hrefs.filterMap (fun href =>
    let full_url := urljoin base_url href
    if is_valid_url full_url base_url then some (clean_url full_url) else none)

/-- `requests.get` as called by `process_page`: URL validation of the
`requests` library (MissingSchema / InvalidURL / InvalidSchema are
`RequestException`s raised before any network traffic: the scheme must be
http or https and a host must be present), then the network oracle. -/
def requests_get (net : String → FetchOutcome) (url : String) : FetchOutcome :=
  let p := urlparse url ""
  if p.scheme ≠ "http" ∧ p.scheme ≠ "https" then .err "InvalidSchema" 0
  else if p.netloc = "" then .err "InvalidURL: No host supplied" 0
  else net url

/-- The link-enqueue loop of `process_page` (lines 129-139): walk the
extracted links, stop after 50 enqueues, enqueue each link not yet
visited while the page cap is not reached, marking it visited. -/
def enqueueLinks (cfg : CrawlConfig) (depth : Nat) (base_url : String) :
    List String → Nat → CrawlState → CrawlState
  | [], _, st => st
  | link :: rest, link_count, st =>
    if link_count ≥ 50 then st
    else if link ∉ st.visited ∧ st.pages.length < cfg.max_pages then
      enqueueLinks cfg depth base_url rest (link_count + 1)
        { st with
          visited := link :: st.visited,
          queue := st.queue ++ [⟨link, depth, base_url⟩],
          enqTrace := st.enqTrace ++ [⟨link, depth, base_url⟩] }
    else enqueueLinks cfg depth base_url rest link_count st

/-- `WebsiteCrawler.process_page` (lines 83-144).  All exceptions are
caught inside this function in the source, so it is total: a failed GET
just advances the clock.  On success the page is recorded (title and
content with their `or`-fallbacks) and, below `max_depth`, links are
extracted and enqueued. -/
def process_page (cfg : CrawlConfig) (net : String → FetchOutcome)
    (st : CrawlState) (item : WorkItem) : CrawlState :=
  if st.pages.length ≥ cfg.max_pages then st
  else
    match requests_get net item.url with
    | .err _ d => { st with now := st.now + d }
    | .ok html d =>
      let st2 := { st with
        now := st.now + d,
        pages := st.pages ++ [⟨item.url,
          pyOr (extract_title html) "Untitled Page",
          pyOr (extract_text_content item.url html)
            ("Unable to extract text content from " ++ item.url)⟩] }
      if item.depth < cfg.max_depth then
        enqueueLinks cfg (item.depth + 1) item.base (extract_links item.base html) 0 st2
      else st2

/-- `WebsiteCrawler.crawl_worker` (lines 152-165): pop and process queue
items until the queue is empty or the page cap is reached, sleeping
`request_delay` after each item.  `fuel` bounds the iterations of the
source's `while` loop. -/
def crawl_worker (cfg : CrawlConfig) (net : String → FetchOutcome) :
    Nat → CrawlState → CrawlState
  | 0, st => st
  | fuel + 1, st =>
    match st.queue with
    | [] => st
    | item :: rest =>
      if st.pages.length < cfg.max_pages then
        let st1 := { st with queue := rest, popTrace := st.popTrace ++ [(item, st.now)] }
        let st2 := process_page cfg net st1 item
        let st3 := { st2 with now := st2.now + cfg.request_delay }
        crawl_worker cfg net fuel st3
      else st

/-- The outer loop of `WebsiteCrawler.crawl` (lines 198-205): while the
queue is non-empty and the cap is not reached, break when the wall clock
has exceeded `timeout`, otherwise run `crawl_worker`. -/
def crawlLoop (cfg : CrawlConfig) (net : String → FetchOutcome) (start_time : Nat) :
    Nat → CrawlState → CrawlState
  | 0, st => st
  | fuel + 1, st =>
    if st.queue ≠ [] ∧ st.pages.length < cfg.max_pages then
      if st.now - start_time > cfg.timeout then st
      else crawlLoop cfg net start_time fuel (crawl_worker cfg net (fuel + 1) st)
    else st

/-- `WebsiteCrawler.crawl` (lines 167-226) up to the final fallback: fresh
state seeded with `(start_url, 1, start_url)`, the seed popped and
processed first (no politeness delay, no timeout check), then the loop.
The source's `except` branch around the seed (lines 188-195, title
"Failed to load page") is unreachable because `process_page` catches
every exception itself, so it has no counterpart here; likewise the
`except` at lines 208-216. -/
def crawlFinal (cfg : CrawlConfig) (net : String → FetchOutcome)
    (start_url : String) (t0 : Nat) (fuel : Nat) : CrawlState :=
  let st0 : CrawlState :=
    { visited := [start_url], pages := [], queue := [⟨start_url, 1, start_url⟩],
      now := t0, popTrace := [], enqTrace := [⟨start_url, 1, start_url⟩] }
  match st0.queue with
  | [] => st0
  | item :: rest =>
    let st1 := { st0 with queue := rest, popTrace := st0.popTrace ++ [(item, st0.now)] }
    let st2 := process_page cfg net st1 item
    crawlLoop cfg net t0 fuel st2

/-- `WebsiteCrawler.crawl`, return value: the page list, with the
"No content found" fallback record when nothing was crawled
(lines 218-226). -/
def crawl (cfg : CrawlConfig) (net : String → FetchOutcome)
    (start_url : String) (t0 : Nat) (fuel : Nat) : List Page :=
  let st := crawlFinal cfg net start_url t0 fuel
  if st.pages = [] then
    [⟨start_url, "No content found", "No content could be extracted from this website."⟩]
  else st.pages

/-! ### Proof infrastructure: crawl invariant and concrete fixtures -/

/-- A URL a discovered link may carry: either it is on the seed's host, or
its re-parse has no scheme (in which case `requests_get` refuses it and it
can never become a page). -/
def LinkOK (start_url u : String) : Prop :=
  (urlparse u "").netloc = (urlparse start_url "").netloc ∨ (urlparse u "").scheme = ""

/-- The inductive invariant of one `crawl` call. -/
def Inv (cfg : CrawlConfig) (start_url : String) (st : CrawlState) : Prop :=
  st.enqTrace = st.popTrace.map Prod.fst ++ st.queue
  ∧ (∀ it ∈ st.enqTrace, 1 ≤ it.depth ∧ (it.depth ≤ cfg.max_depth ∨ it.depth = 1))
  ∧ st.pages.length ≤ cfg.max_pages
  ∧ (∀ p ∈ st.pages, p.content ≠ "")
  ∧ (∀ it ∈ st.enqTrace, it.base = start_url)
  ∧ (∀ it ∈ st.enqTrace, it.url = start_url ∨ LinkOK start_url it.url)
  ∧ (∀ p ∈ st.pages, (urlparse p.url "").netloc = (urlparse start_url "").netloc)
  ∧ (st.pages.map Page.url ++ st.queue.map WorkItem.url).Nodup
  ∧ (∀ u ∈ st.pages.map Page.url ++ st.queue.map WorkItem.url, u ∈ st.visited)

/-- Standard configuration for the concrete scenarios. -/
def cfgStd : CrawlConfig := ⟨3, 50, 0, 30⟩

/-- A network where every request fails. -/
def netFail : String → FetchOutcome := fun _ => .err "connection refused" 1

/-- A site whose seed URL carries a fragment and links to its own
canonical (fragment-free) URL. -/
def netFragment : String → FetchOutcome := fun u =>
  if u = "http://h/p#a" then .ok ⟨some "body", "", some "T", ["http://h/p"]⟩ 1
  else if u = "http://h/p" then .ok ⟨some "body2", "", some "T2", []⟩ 1
  else .err "nope" 0

/-- A site where a subdirectory page carries a relative link. -/
def netRelative : String → FetchOutcome := fun u =>
  if u = "http://h/" then .ok ⟨some "x", "", some "t", ["http://h/dir/page"]⟩ 1
  else if u = "http://h/dir/page" then .ok ⟨some "y", "", some "t2", ["sub"]⟩ 1
  else .err "nope" 0

/-- Configuration with a 5-unit crawl timeout. -/
def cfgTimeout : CrawlConfig := ⟨3, 50, 0, 5⟩

/-- A site whose second page takes 10 time units to fetch, blowing the
5-unit crawl timeout while two items are still queued. -/
def netSlow : String → FetchOutcome := fun u =>
  if u = "http://h/a" then .ok ⟨some "c", "", some "t", ["http://h/b", "http://h/c"]⟩ 1
  else if u = "http://h/b" then .ok ⟨some "c2", "", some "t2", []⟩ 10
  else if u = "http://h/c" then .ok ⟨some "c3", "", some "t3", []⟩ 1
  else .err "nope" 0

/-! ### Basic lemmas about the string utilities -/

theorem charToNat_ofNat (n : Nat) (h : n.isValidChar) : (Char.ofNat n).toNat = n := by
  simp only [Char.ofNat, h, Char.ofNatAux, Char.toNat, dite_true]
  simp [UInt32.toNat, BitVec.toNat_ofNatLt]

/-- `Char.toLower` either leaves a character unchanged or yields a basic
lowercase latin letter. -/
theorem toLower_cases (c : Char) :
    Char.toLower c = c ∨ (97 ≤ (Char.toLower c).toNat ∧ (Char.toLower c).toNat ≤ 122) := by
  unfold Char.toLower
  dsimp only
  split
  · next h =>
    right
    have hv : (c.toNat + 32).isValidChar := by
      left
      omega
    have := charToNat_ofNat (c.toNat + 32) hv
    omega
  · left; rfl

theorem toLower_ne_colon (c : Char) (h : c ≠ ':') : Char.toLower c ≠ ':' := by
  rcases toLower_cases c with h2 | h2
  · rw [h2]; exact h
  · intro hc
    rw [hc] at h2
    have h58 : (':' : Char).toNat = 58 := rfl
    omega

theorem toLower_ne_slash (c : Char) (h : c ≠ '/') : Char.toLower c ≠ '/' := by
  rcases toLower_cases c with h2 | h2
  · rw [h2]; exact h
  · intro hc
    rw [hc] at h2
    have h47 : ('/' : Char).toNat = 47 := rfl
    omega

/-- When `c` does not occur, `splitOnFirst` returns the whole input. -/
theorem sof_none (c : Char) (l : List Char) (h : (splitOnFirst c l).2 = none) :
    (splitOnFirst c l).1 = l := by
  induction l with
  | nil => rfl
  | cons x xs ih =>
    by_cases hx : x = c
    · simp [splitOnFirst, hx] at h
    · simp only [splitOnFirst, hx, if_false] at h ⊢
      simpa using ih h

/-- Appending behaves predictably under `splitOnFirst`. -/
theorem sof_append (c : Char) (l m : List Char) :
    splitOnFirst c (l ++ m) =
      match (splitOnFirst c l).2 with
      | some r => ((splitOnFirst c l).1, some (r ++ m))
      | none => (l ++ (splitOnFirst c m).1, (splitOnFirst c m).2) := by
  induction l with
  | nil => simp [splitOnFirst]
  | cons x xs ih =>
    by_cases hx : x = c
    · simp [splitOnFirst, hx]
    · cases hh : splitOnFirst c xs with
      | mk a o =>
        rw [hh] at ih
        cases o with
        | some r => simp [splitOnFirst, hx, ih, hh]
        | none => simp [splitOnFirst, hx, ih, hh]

theorem sof_fst_append_self (c : Char) (l s : List Char) :
    (splitOnFirst c (l ++ c :: s)).1 = (splitOnFirst c l).1 := by
  rw [sof_append]
  cases h2 : (splitOnFirst c l).2 with
  | some r => simp
  | none => simp [splitOnFirst, sof_none c l h2]

/-- Everything before the first occurrence differs from `c`. -/
theorem sof_fst_mem (c : Char) (l : List Char) (x : Char)
    (hx : x ∈ (splitOnFirst c l).1) : x ≠ c := by
  induction l with
  | nil => simp [splitOnFirst] at hx
  | cons y ys ih =>
    by_cases hy : y = c
    · simp [splitOnFirst, hy] at hx
    · simp only [splitOnFirst, hy, if_false, List.mem_cons] at hx
      rcases hx with hx | hx
      · exact hx ▸ hy
      · exact ih hx

theorem validScheme_all (pre : List Char) (h : validScheme pre = true) :
    ∀ x ∈ pre, schemeChar x = true := by
  match pre with
  | [] => simp [validScheme] at h
  | c :: cs =>
    simp only [validScheme, Bool.and_eq_true, List.all_eq_true] at h
    exact h.2

theorem validScheme_false_of_mem (pre : List Char) (d : Char)
    (hd : schemeChar d = false) (hmem : d ∈ pre) : validScheme pre = false := by
  by_contra h
  have h2 := validScheme_all pre (by revert h; cases validScheme pre <;> simp) d hmem
  rw [hd] at h2
  exact Bool.false_ne_true h2

/-- `schemeSplit` ignores a suffix starting with a non-scheme, non-colon
character. -/
theorem schemeSplit_append (d : Char) (hd : schemeChar d = false) (hc : d ≠ ':')
    (l s : List Char) :
    schemeSplit (l ++ d :: s) = ((schemeSplit l).1, (schemeSplit l).2 ++ d :: s) := by
  have hA := sof_append ':' l (d :: s)
  cases hh : splitOnFirst ':' l with
  | mk pre o =>
    rw [hh] at hA
    cases o with
    | some r =>
      by_cases hv : validScheme pre
      · simp [schemeSplit, hA, hh, hv]
      · simp [schemeSplit, hA, hh, hv]
    | none =>
      have step : splitOnFirst ':' (d :: s) =
          (d :: (splitOnFirst ':' s).1, (splitOnFirst ':' s).2) := by
        cases hs : splitOnFirst ':' s with
        | mk a2 o2 => simp [splitOnFirst, hc, hs]
      rw [step] at hA
      dsimp only at hA
      cases ho2 : (splitOnFirst ':' s).2 with
      | some r2 =>
        rw [ho2] at hA
        have hinv : validScheme (l ++ d :: (splitOnFirst ':' s).1) = false :=
          validScheme_false_of_mem _ d hd (by simp)
        simp [schemeSplit, hA, hh, hinv]
      | none =>
        rw [ho2] at hA
        simp [schemeSplit, hA, hh]

/-- `netlocSpan` ignores a suffix starting with a stop character. -/
theorem netlocSpan_append (d : Char) (hd : d = '/' ∨ d = '?' ∨ d = '#')
    (l s : List Char) :
    netlocSpan (l ++ d :: s) = ((netlocSpan l).1, (netlocSpan l).2 ++ d :: s) := by
  induction l with
  | nil => simp [netlocSpan, hd]
  | cons x xs ih =>
    by_cases hx : x = '/' ∨ x = '?' ∨ x = '#'
    · simp [netlocSpan, hx]
    · simp [netlocSpan, hx, ih]

/-- `netlocSplit` ignores a suffix starting with `'#'` or `'?'`. -/
theorem netlocSplit_append (d : Char) (hd : d = '#' ∨ d = '?') (l s : List Char) :
    netlocSplit (l ++ d :: s) = ((netlocSplit l).1, (netlocSplit l).2 ++ d :: s) := by
  have hd3 : d = '/' ∨ d = '?' ∨ d = '#' := by tauto
  have hdslash : d ≠ '/' := by rcases hd with h | h <;> simp [h]
  match l with
  | [] =>
    match s with
    | [] => simp [netlocSplit, hdslash]
    | y :: ys => simp [netlocSplit, hdslash]
  | [a] =>
    by_cases ha : a = '/' ∧ d = '/'
    · exact absurd ha.2 hdslash
    · simp [netlocSplit, ha]
  | a :: b :: t =>
    by_cases hab : a = '/' ∧ b = '/'
    · simp [netlocSplit, hab, netlocSpan_append d hd3]
    · simp [netlocSplit, hab]

theorem data_append_char (p s : String) (c : Char) (hc : String.data ⟨[c]⟩ = [c]) :
    (p ++ ⟨[c]⟩ ++ s).data = p.data ++ c :: s.data := by
  simp [String.data_append, hc]

/-- Scheme, netloc and path of `urlparse` are unchanged by appending a
fragment part `"#" ++ f`. -/
theorem urlparse_append_frag (p f : String) :
    (urlparse (p ++ "#" ++ f) "").scheme = (urlparse p "").scheme ∧
    (urlparse (p ++ "#" ++ f) "").netloc = (urlparse p "").netloc ∧
    (urlparse (p ++ "#" ++ f) "").path = (urlparse p "").path := by
  have hdata : (p ++ "#" ++ f).data = p.data ++ '#' :: f.data :=
    data_append_char p f '#' rfl
  have h1 := schemeSplit_append '#' (by decide) (by decide) p.data f.data
  have h2 := netlocSplit_append '#' (Or.inl rfl) (schemeSplit p.data).2 f.data
  have h3 := sof_fst_append_self '#' (netlocSplit (schemeSplit p.data).2).2 f.data
  refine ⟨?_, ?_, ?_⟩ <;>
    simp only [urlparse, hdata, h1, h2, h3]

/-- Scheme, netloc and path of `urlparse` are unchanged by appending a
query part `"?" ++ q`. -/
theorem urlparse_append_query (p q : String) :
    (urlparse (p ++ "?" ++ q) "").scheme = (urlparse p "").scheme ∧
    (urlparse (p ++ "?" ++ q) "").netloc = (urlparse p "").netloc ∧
    (urlparse (p ++ "?" ++ q) "").path = (urlparse p "").path := by
  have hdata : (p ++ "?" ++ q).data = p.data ++ '?' :: q.data :=
    data_append_char p q '?' rfl
  have h1 := schemeSplit_append '?' (by decide) (by decide) p.data q.data
  have h2 := netlocSplit_append '?' (Or.inr rfl) (schemeSplit p.data).2 q.data
  have hA := sof_append '#' (netlocSplit (schemeSplit p.data).2).2 ('?' :: q.data)
  cases hh : splitOnFirst '#' (netlocSplit (schemeSplit p.data).2).2 with
  | mk bf o =>
    rw [hh] at hA
    cases o with
    | some r =>
      refine ⟨?_, ?_, ?_⟩ <;> simp only [urlparse, hdata, h1, h2, hA, hh]
    | none =>
      have hbf : bf = (netlocSplit (schemeSplit p.data).2).2 := by
        have := sof_none '#' (netlocSplit (schemeSplit p.data).2).2 (by rw [hh])
        rw [hh] at this
        exact this
      have step : splitOnFirst '#' ('?' :: q.data) =
          ('?' :: (splitOnFirst '#' q.data).1, (splitOnFirst '#' q.data).2) := by
        cases hs : splitOnFirst '#' q.data with
        | mk a2 o2 => simp [splitOnFirst, hs]
      rw [step] at hA
      dsimp only at hA
      have h4 := sof_fst_append_self '?' (netlocSplit (schemeSplit p.data).2).2
        (splitOnFirst '#' q.data).1
      refine ⟨?_, ?_, ?_⟩ <;>
        simp only [urlparse, hdata, h1, h2, hA, hh, hbf, h4]

theorem sof_no_occ (c : Char) (l : List Char) (h : ∀ x ∈ l, x ≠ c) :
    splitOnFirst c l = (l, none) := by
  induction l with
  | nil => rfl
  | cons x xs ih =>
    have hx : x ≠ c := h x (by simp)
    have ih2 := ih (fun y hy => h y (by simp [hy]))
    simp [splitOnFirst, hx, ih2]

theorem sof_exact (c : Char) (l r : List Char) (h : ∀ x ∈ l, x ≠ c) :
    splitOnFirst c (l ++ c :: r) = (l, some r) := by
  have hA := sof_append c l (c :: r)
  rw [sof_no_occ c l h] at hA
  simpa [splitOnFirst] using hA

theorem sof_fst_is_pre (c : Char) (l : List Char) :
    ∃ t, (splitOnFirst c l).1 ++ t = l := by
  induction l with
  | nil => exact ⟨[], rfl⟩
  | cons x xs ih =>
    by_cases hx : x = c
    · exact ⟨x :: xs, by simp [splitOnFirst, hx]⟩
    · obtain ⟨t, ht⟩ := ih
      exact ⟨t, by simp [splitOnFirst, hx, ht]⟩

theorem netlocSpan_fst_mem (l : List Char) (x : Char)
    (hx : x ∈ (netlocSpan l).1) : ¬(x = '/' ∨ x = '?' ∨ x = '#') := by
  induction l with
  | nil => simp [netlocSpan] at hx
  | cons y ys ih =>
    by_cases hy : y = '/' ∨ y = '?' ∨ y = '#'
    · simp [netlocSpan, hy] at hx
    · simp only [netlocSpan, hy, if_false, List.mem_cons] at hx
      rcases hx with hx | hx
      · exact hx ▸ hy
      · exact ih hx

theorem netlocSpan_snd_shape (l : List Char) :
    (netlocSpan l).2 = [] ∨
      ∃ x t, (netlocSpan l).2 = x :: t ∧ (x = '/' ∨ x = '?' ∨ x = '#') := by
  induction l with
  | nil => left; rfl
  | cons y ys ih =>
    by_cases hy : y = '/' ∨ y = '?' ∨ y = '#'
    · right; exact ⟨y, ys, by simp [netlocSpan, hy], hy⟩
    · simpa [netlocSpan, hy] using ih

theorem netlocSpan_exact (N P : List Char)
    (hN : ∀ x ∈ N, ¬(x = '/' ∨ x = '?' ∨ x = '#'))
    (hP : P = [] ∨ ∃ x t, P = x :: t ∧ (x = '/' ∨ x = '?' ∨ x = '#')) :
    netlocSpan (N ++ P) = (N, P) := by
  induction N with
  | nil =>
    rcases hP with hP | ⟨x, t, hP, hx⟩
    · simp [hP, netlocSpan]
    · simp [hP, netlocSpan, hx]
  | cons y ys ih =>
    have hy := hN y (by simp)
    have ih2 := ih (fun z hz => hN z (by simp [hz]))
    simp [netlocSpan, hy, ih2]

theorem netlocSplit_fst_mem (l : List Char) (x : Char)
    (hx : x ∈ (netlocSplit l).1) : ¬(x = '/' ∨ x = '?' ∨ x = '#') := by
  match l with
  | [] => simp [netlocSplit] at hx
  | [a] => simp [netlocSplit] at hx
  | a :: b :: t =>
    by_cases hab : a = '/' ∧ b = '/'
    · rw [netlocSplit] at hx
      simp only [hab, if_true] at hx
      exact netlocSpan_fst_mem t x hx
    · rw [netlocSplit] at hx
      simp [hab] at hx

theorem netlocSplit_snd_shape (l : List Char) (h : (netlocSplit l).1 ≠ []) :
    (netlocSplit l).2 = [] ∨
      ∃ x t, (netlocSplit l).2 = x :: t ∧ (x = '/' ∨ x = '?' ∨ x = '#') := by
  match l with
  | [] => simp [netlocSplit] at h
  | [a] => simp [netlocSplit] at h
  | a :: b :: t =>
    by_cases hab : a = '/' ∧ b = '/'
    · rw [netlocSplit]
      simp only [hab, if_true]
      exact netlocSpan_snd_shape t
    · rw [netlocSplit] at h
      simp [hab] at h

theorem netlocSplit_head_ne (x : Char) (t : List Char) (hx : x ≠ '/') :
    netlocSplit (x :: t) = ([], x :: t) := by
  match t with
  | [] => rfl
  | b :: t2 =>
    rw [netlocSplit]
    simp [hx]

theorem netlocSplit_slashes (r : List Char) :
    netlocSplit ('/' :: '/' :: r) = netlocSpan r := by
  rw [netlocSplit]
  simp

theorem lastSlashSplit_decomp (l a b : List Char) (h : lastSlashSplit l = some (a, b)) :
    a ++ '/' :: b = l := by
  induction l generalizing a b with
  | nil => simp [lastSlashSplit] at h
  | cons x xs ih =>
    rw [lastSlashSplit] at h
    cases hh : lastSlashSplit xs with
    | some p =>
      rw [hh] at h
      cases p with
      | mk a2 b2 =>
        simp only [Option.some.injEq, Prod.mk.injEq] at h
        obtain ⟨h1, h2⟩ := h
        have := ih a2 b2 hh
        simp [← h1, ← h2, this]
    | none =>
      rw [hh] at h
      by_cases hx : x = '/'
      · simp only [hx, if_true, Option.some.injEq, Prod.mk.injEq] at h
        obtain ⟨h1, h2⟩ := h
        simp [← h1, ← h2, hx]
      · simp [hx] at h

theorem sof_some_decomp (c : Char) (l r : List Char)
    (h : (splitOnFirst c l).2 = some r) : (splitOnFirst c l).1 ++ c :: r = l := by
  induction l generalizing r with
  | nil => simp [splitOnFirst] at h
  | cons x xs ih =>
    by_cases hx : x = c
    · simp only [splitOnFirst, hx, if_true] at h ⊢
      simp only [Option.some.injEq] at h
      simp [h, hx]
    · cases hh : splitOnFirst c xs with
      | mk a o =>
        simp only [splitOnFirst, hx, if_false, hh] at h ⊢
        cases o with
        | some r2 =>
          simp only [Option.some.injEq] at h
          have := ih r2 (by rw [hh])
          rw [hh] at this
          simp only at this
          simp [← h, this]
        | none => simp at h

theorem splitparams_fst_pre (l : List Char) : ∃ t, (splitparams l).1 ++ t = l := by
  rw [splitparams]
  cases hL : lastSlashSplit l with
  | some p =>
    cases p with
    | mk a seg =>
      cases hS : splitOnFirst ';' seg with
      | mk s1 o =>
        cases o with
        | some s2 =>
          refine ⟨';' :: s2, ?_⟩
          have hdec := lastSlashSplit_decomp l a seg hL
          have hdec2 := sof_some_decomp ';' seg s2 (by rw [hS])
          rw [hS] at hdec2
          simp only at hdec2
          dsimp only
          rw [hS]
          simp only []
          rw [show a ++ '/' :: s1 ++ ';' :: s2 = a ++ '/' :: (s1 ++ ';' :: s2) by simp]
          rw [hdec2, hdec]
        | none => exact ⟨[], by dsimp only; rw [hS]; simp⟩
  | none =>
    cases hS : splitOnFirst ';' l with
    | mk s1 o =>
      cases o with
      | some s2 =>
        refine ⟨';' :: s2, ?_⟩
        have hdec2 := sof_some_decomp ';' l s2 (by rw [hS])
        rw [hS] at hdec2
        simpa using hdec2
      | none => exact ⟨[], by simp⟩

theorem schemeSplit_shape (l : List Char) :
    (schemeSplit l).1 = [] ∨
      ∃ pre, splitOnFirst ':' l = (pre, some (schemeSplit l).2) ∧
        validScheme pre = true ∧ (schemeSplit l).1 = pre.map Char.toLower := by
  rw [schemeSplit]
  cases hh : splitOnFirst ':' l with
  | mk pre o =>
    cases o with
    | some rest =>
      by_cases hv : validScheme pre
      · right
        exact ⟨pre, by simp [hh, hv], hv, by simp [hv]⟩
      · left; simp [hv]
    | none => left; rfl

theorem validScheme_head (pre : List Char) (h : validScheme pre = true) :
    ∃ c cs, pre = c :: cs ∧ c.isAlpha = true := by
  match pre with
  | [] => simp [validScheme] at h
  | c :: cs =>
    simp only [validScheme, Bool.and_eq_true] at h
    exact ⟨c, cs, rfl, h.1⟩

theorem isAlpha_ne_slash (c : Char) (h : c.isAlpha = true) : c ≠ '/' := by
  intro hc
  subst hc
  exact absurd h (by decide)

/-- With the empty default, the parsed scheme is exactly the
`schemeSplit` output. -/
theorem urlparse_scheme_empty_default (u : String) :
    (urlparse u "").scheme = ⟨(schemeSplit u.data).1⟩ := by
  by_cases h : (schemeSplit u.data).1 = [] <;> simp [urlparse, h]

theorem urlparse_netloc_proj (u d : String) :
    (urlparse u d).netloc = ⟨(netlocSplit (schemeSplit u.data).2).1⟩ := rfl

/-- When a netloc is present, the parsed path is empty or starts with a
slash. -/
theorem urlparse_path_shape (u : String) (h : (urlparse u "").netloc ≠ "") :
    (urlparse u "").path.data = [] ∨ ∃ t, (urlparse u "").path.data = '/' :: t := by
  have hN : (netlocSplit (schemeSplit u.data).2).1 ≠ [] := by
    intro hc
    apply h
    rw [urlparse_netloc_proj, hc]
  have hR2 := netlocSplit_snd_shape (schemeSplit u.data).2 hN
  obtain ⟨t1, ht1⟩ := sof_fst_is_pre '#' (netlocSplit (schemeSplit u.data).2).2
  obtain ⟨t2, ht2⟩ :=
    sof_fst_is_pre '?' (splitOnFirst '#' (netlocSplit (schemeSplit u.data).2).2).1
  have hP : ∃ t3, (urlparse u "").path.data ++ t3 =
      (splitOnFirst '?' (splitOnFirst '#' (netlocSplit (schemeSplit u.data).2).2).1).1 := by
    by_cases hc : ((⟨if (schemeSplit u.data).1 = [] then String.data "" else
        (schemeSplit u.data).1⟩ : String) ∈ usesParams ∧
        ((splitOnFirst '?' (splitOnFirst '#'
          (netlocSplit (schemeSplit u.data).2).2).1).1).contains ';')
    · obtain ⟨t3, ht3⟩ := splitparams_fst_pre
        (splitOnFirst '?' (splitOnFirst '#' (netlocSplit (schemeSplit u.data).2).2).1).1
      exact ⟨t3, by simp only [urlparse, hc, if_true]; exact ht3⟩
    · exact ⟨[], by simp only [urlparse, hc, if_false]; simp⟩
  obtain ⟨t3, ht3⟩ := hP
  cases hpd : (urlparse u "").path.data with
  | nil => left; rfl
  | cons x xs =>
    right
    rw [hpd] at ht3
    have hxp0 : x ∈ (splitOnFirst '?' (splitOnFirst '#'
        (netlocSplit (schemeSplit u.data).2).2).1).1 := by
      rw [← ht3]; simp
    have hxbf : x ∈ (splitOnFirst '#' (netlocSplit (schemeSplit u.data).2).2).1 := by
      rw [← ht2]
      exact List.mem_append_left _ hxp0
    have hxq : x ≠ '?' := sof_fst_mem '?' _ x hxp0
    have hxf : x ≠ '#' := sof_fst_mem '#' _ x hxbf
    have hR2head : (netlocSplit (schemeSplit u.data).2).2 = x :: (xs ++ t3 ++ t2 ++ t1) := by
      rw [← ht1, ← ht2, ← ht3]
      simp
    rcases hR2 with hR2 | ⟨y, ty, hR2, hy⟩
    · rw [hR2] at hR2head; simp at hR2head
    · rw [hR2] at hR2head
      have hxy : x = y := by
        have := hR2head
        simp only [List.cons.injEq] at this
        exact this.1.symm
      rcases hy with hy | hy | hy
      · exact ⟨xs, by rw [hxy, hy]⟩
      · exact absurd (hxy.trans hy) hxq
      · exact absurd (hxy.trans hy) hxf

/-- Re-parsing the canonicalized URL either preserves the netloc or
yields an empty scheme and netloc (the latter only for scheme-less
inputs, which `requests` refuses to fetch). -/
theorem clean_url_netloc (u : String) (h : (urlparse u "").netloc ≠ "") :
    (urlparse (clean_url u) "").netloc = (urlparse u "").netloc ∨
    ((urlparse (clean_url u) "").scheme = "" ∧ (urlparse (clean_url u) "").netloc = "") := by
  have hN : (netlocSplit (schemeSplit u.data).2).1 ≠ [] := by
    intro hc
    apply h
    rw [urlparse_netloc_proj, hc]
  have hNmem := netlocSplit_fst_mem (schemeSplit u.data).2
  have hPshape := urlparse_path_shape u h
  have hspan : netlocSpan ((netlocSplit (schemeSplit u.data).2).1 ++
      (urlparse u "").path.data) =
      ((netlocSplit (schemeSplit u.data).2).1, (urlparse u "").path.data) := by
    apply netlocSpan_exact _ _ hNmem
    rcases hPshape with hp | ⟨t, hp⟩
    · left; exact hp
    · right; exact ⟨'/', t, hp, Or.inl rfl⟩
  have hdata : (clean_url u).data = (schemeSplit u.data).1 ++
      ':' :: '/' :: '/' :: ((netlocSplit (schemeSplit u.data).2).1 ++
        (urlparse u "").path.data) := by
    rw [clean_url]
    rw [urlparse_scheme_empty_default, urlparse_netloc_proj]
    simp [String.data_append]
  rcases schemeSplit_shape u.data with hS | ⟨pre, hsof, hvpre, hSmap⟩
  · -- no scheme in the original URL: the canonical form starts with "://"
    right
    rw [hS] at hdata
    simp only [List.nil_append] at hdata
    have hre : schemeSplit (clean_url u).data = ([], (clean_url u).data) := by
      rw [schemeSplit, hdata]
      simp [splitOnFirst, validScheme]
    constructor
    · rw [urlparse_scheme_empty_default, hre]
    · rw [urlparse_netloc_proj, hre]
      dsimp only
      rw [hdata, netlocSplit_head_ne ':' _ (by decide)]
  · -- the original URL has a valid scheme
    have hScolon : ∀ x ∈ (schemeSplit u.data).1, x ≠ ':' := by
      intro x hx
      rw [hSmap] at hx
      obtain ⟨y, hy, hxy⟩ := List.mem_map.mp hx
      have hyc : y ≠ ':' := by
        have : y ∈ (splitOnFirst ':' u.data).1 := by rw [hsof]; exact hy
        exact sof_fst_mem ':' u.data y this
      rw [← hxy]
      exact toLower_ne_colon y hyc
    have hsof2 : splitOnFirst ':' ((clean_url u).data) =
        ((schemeSplit u.data).1, some ('/' :: '/' :: ((netlocSplit (schemeSplit u.data).2).1 ++
          (urlparse u "").path.data))) := by
      rw [hdata]
      exact sof_exact ':' _ _ hScolon
    by_cases hv : validScheme (schemeSplit u.data).1
    · -- the lowercased scheme re-validates: netloc is preserved
      left
      have hre : schemeSplit (clean_url u).data =
          ((schemeSplit u.data).1.map Char.toLower,
            '/' :: '/' :: ((netlocSplit (schemeSplit u.data).2).1 ++
              (urlparse u "").path.data)) := by
        rw [schemeSplit, hsof2]
        simp [hv]
      rw [urlparse_netloc_proj, hre]
      dsimp only
      rw [netlocSplit_slashes, hspan]
      rw [urlparse_netloc_proj]
    · -- the scheme does not re-validate: scheme and netloc are empty
      right
      have hre : schemeSplit (clean_url u).data = ([], (clean_url u).data) := by
        rw [schemeSplit, hsof2]
        simp [hv]
      obtain ⟨c0, cs0, hpre, halpha⟩ := validScheme_head pre hvpre
      have hhead : ∃ t0, (clean_url u).data = Char.toLower c0 :: t0 := by
        rw [hdata, hSmap, hpre]
        exact ⟨_, rfl⟩
      obtain ⟨t0, ht0⟩ := hhead
      constructor
      · rw [urlparse_scheme_empty_default, hre]
      · rw [urlparse_netloc_proj, hre]
        dsimp only
        rw [ht0, netlocSplit_head_ne _ _ (toLower_ne_slash c0 (isAlpha_ne_slash c0 halpha))]

/-! ### Lemmas about the crawler model -/

theorem pyOr_ne_empty (a b : String) (hb : b ≠ "") : pyOr a b ≠ "" := by
  rw [pyOr]
  by_cases ha : a = "" <;> simp [ha, hb]

theorem str_append_ne_empty (s t : String) (h : s.data ≠ []) : s ++ t ≠ "" := by
  intro hc
  have hdata : (s ++ t).data = [] := by rw [hc]
  rw [String.data_append] at hdata
  exact h (List.append_eq_nil.mp hdata).1

theorem requests_get_ok (net : String → FetchOutcome) (u : String) (html : Html) (d : Nat)
    (h : requests_get net u = .ok html d) :
    ((urlparse u "").scheme = "http" ∨ (urlparse u "").scheme = "https") ∧
    (urlparse u "").netloc ≠ "" ∧ net u = .ok html d := by
  rw [requests_get] at h
  by_cases h1 : (urlparse u "").scheme ≠ "http" ∧ (urlparse u "").scheme ≠ "https"
  · simp [h1] at h
  · by_cases h2 : (urlparse u "").netloc = ""
    · simp [h1, h2] at h
    · refine ⟨by tauto, h2, ?_⟩
      simpa [h1, h2] using h

theorem is_valid_url_eq (u b : String) (h : is_valid_url u b = true) :
    (urlparse u "").netloc ≠ "" ∧ (urlparse u "").netloc = (urlparse b "").netloc := by
  rw [is_valid_url] at h
  simp only [Bool.and_eq_true, bne_iff_ne, beq_iff_eq] at h
  exact h

theorem extract_links_mem (b : String) (h : Html) (u : String)
    (hu : u ∈ extract_links b h) :
    ∃ href ∈ h.hrefs, u = clean_url (urljoin b href) ∧
      is_valid_url (urljoin b href) b = true := by
  rw [extract_links] at hu
  obtain ⟨href, hh, he⟩ := List.mem_filterMap.mp hu
  by_cases hv : is_valid_url (urljoin b href) b = true
  · refine ⟨href, hh, ?_, hv⟩
    simp only [hv, if_true, Option.some.injEq] at he
    exact he.symm
  · simp only [Bool.of_not_eq_true hv] at he
    simp at he

theorem extract_links_ok (start_url : String) (h : Html) :
    ∀ u ∈ extract_links start_url h, LinkOK start_url u := by
  intro u hu
  obtain ⟨href, _, hu1, hv⟩ := extract_links_mem start_url h u hu
  obtain ⟨hne, heq⟩ := is_valid_url_eq _ _ hv
  rcases clean_url_netloc (urljoin start_url href) hne with hc | hc
  · left
    rw [hu1, hc, heq]
  · right
    rw [hu1]
    exact hc.1

/-- Full effect description of the link-enqueue loop. -/
theorem enqueueLinks_spec (cfg : CrawlConfig) (depth : Nat) (base : String)
    (links : List String) (count : Nat) (st : CrawlState) :
    (enqueueLinks cfg depth base links count st).pages = st.pages ∧
    (enqueueLinks cfg depth base links count st).now = st.now ∧
    (enqueueLinks cfg depth base links count st).popTrace = st.popTrace ∧
    ∃ new : List WorkItem,
      (enqueueLinks cfg depth base links count st).queue = st.queue ++ new ∧
      (enqueueLinks cfg depth base links count st).enqTrace = st.enqTrace ++ new ∧
      (∀ it ∈ new, it.depth = depth ∧ it.base = base ∧ it.url ∈ links ∧
        it.url ∉ st.visited) ∧
      (new.map WorkItem.url).Nodup ∧
      (∀ x ∈ st.visited, x ∈ (enqueueLinks cfg depth base links count st).visited) ∧
      (∀ it ∈ new, it.url ∈ (enqueueLinks cfg depth base links count st).visited) := by
  induction links generalizing count st with
  | nil =>
    refine ⟨rfl, rfl, rfl, [], by simp [enqueueLinks], by simp [enqueueLinks], ?_, ?_, ?_, ?_⟩
    · simp
    · simp
    · intro x hx; simpa [enqueueLinks] using hx
    · simp
  | cons link rest ih =>
    by_cases h50 : count ≥ 50
    · have heq : enqueueLinks cfg depth base (link :: rest) count st = st := by
        rw [enqueueLinks]
        simp [h50]
      rw [heq]
      exact ⟨rfl, rfl, rfl, [], by simp, by simp, by simp, by simp, fun x hx => hx, by simp⟩
    · by_cases hc : link ∉ st.visited ∧ st.pages.length < cfg.max_pages
      · have heq : enqueueLinks cfg depth base (link :: rest) count st =
            enqueueLinks cfg depth base rest (count + 1)
              { st with
                visited := link :: st.visited,
                queue := st.queue ++ [⟨link, depth, base⟩],
                enqTrace := st.enqTrace ++ [⟨link, depth, base⟩] } := by
          rw [enqueueLinks]
          simp [h50, hc]
        obtain ⟨hp, hn, hpt, new1, hq1, he1, hprops1, hnd1, hmono1, hvis1⟩ :=
          ih (count + 1)
            { st with
              visited := link :: st.visited,
              queue := st.queue ++ [⟨link, depth, base⟩],
              enqTrace := st.enqTrace ++ [⟨link, depth, base⟩] }
        rw [heq]
        refine ⟨hp, hn, hpt, (⟨link, depth, base⟩ : WorkItem) :: new1, ?_, ?_, ?_, ?_, ?_, ?_⟩
        · rw [hq1]; simp
        · rw [he1]; simp
        · intro it hit
          rcases List.mem_cons.mp hit with hit | hit
          · subst hit
            exact ⟨rfl, rfl, by simp, hc.1⟩
          · obtain ⟨h1, h2, h3, h4⟩ := hprops1 it hit
            refine ⟨h1, h2, by simp [h3], ?_⟩
            intro hmem
            exact h4 (by simp [hmem])
        · refine List.nodup_cons.mpr ⟨?_, hnd1⟩
          intro hmem
          obtain ⟨it, hit, hitu⟩ := List.mem_map.mp hmem
          have := (hprops1 it hit).2.2.2
          apply this
          simp [hitu]
        · intro x hx
          exact hmono1 x (by simp [hx])
        · intro it hit
          rcases List.mem_cons.mp hit with hit | hit
          · subst hit
            exact hmono1 link (by simp)
          · exact hvis1 it hit
      · have heq : enqueueLinks cfg depth base (link :: rest) count st =
            enqueueLinks cfg depth base rest count st := by
          rw [enqueueLinks]
          simp [h50, hc]
        obtain ⟨hp, hn, hpt, new1, hq1, he1, hprops1, hnd1, hmono1, hvis1⟩ := ih count st
        rw [heq]
        refine ⟨hp, hn, hpt, new1, hq1, he1, ?_, hnd1, hmono1, hvis1⟩
        intro it hit
        obtain ⟨h1, h2, h3, h4⟩ := hprops1 it hit
        exact ⟨h1, h2, by simp [h3], h4⟩

/-- The invariant does not mention the clock. -/
theorem Inv_now (cfg : CrawlConfig) (start_url : String) (st : CrawlState) (n : Nat)
    (h : Inv cfg start_url st) : Inv cfg start_url { st with now := n } := h

/-- `process_page` preserves the invariant, given the facts that hold of
any item just popped from the frontier. -/
theorem process_page_inv (cfg : CrawlConfig) (net : String → FetchOutcome)
    (start_url : String) (st : CrawlState) (item : WorkItem)
    (hInv : Inv cfg start_url st)
    (hbase : item.base = start_url)
    (hurl : item.url = start_url ∨ LinkOK start_url item.url)
    (hdepth1 : 1 ≤ item.depth)
    (hnp : item.url ∉ st.pages.map Page.url)
    (hnq : item.url ∉ st.queue.map WorkItem.url)
    (hvis : item.url ∈ st.visited) :
    Inv cfg start_url (process_page cfg net st item) := by
  rw [process_page]
  by_cases hfull : st.pages.length ≥ cfg.max_pages
  · simp only [hfull, if_true]
    exact hInv
  · simp only [hfull, if_false]
    cases hreq : requests_get net item.url with
    | err m d => exact hInv
    | ok html d =>
      obtain ⟨hscheme, hnloc, _⟩ := requests_get_ok net item.url html d hreq
      have hhost : (urlparse item.url "").netloc = (urlparse start_url "").netloc := by
        rcases hurl with h | h
        · rw [h]
        · rcases h with h | h
          · exact h
          · exfalso
            rcases hscheme with hs | hs <;> (rw [h] at hs; exact absurd hs (by decide))
      obtain ⟨i1, i2, i3, i4, i5, i6, i7, i8, i9⟩ := hInv
      have hInv2 : Inv cfg start_url
          { st with
            now := st.now + d,
            pages := st.pages ++ [⟨item.url,
              pyOr (extract_title html) "Untitled Page",
              pyOr (extract_text_content item.url html)
                ("Unable to extract text content from " ++ item.url)⟩] } := by
        refine ⟨i1, i2, ?_, ?_, i5, i6, ?_, ?_, ?_⟩
        · simp only [List.length_append, List.length_singleton]
          omega
        · intro p hp
          rcases List.mem_append.mp hp with hp | hp
          · exact i4 p hp
          · rw [List.mem_singleton.mp hp]
            exact pyOr_ne_empty _ _ (str_append_ne_empty _ _ (by decide))
        · intro p hp
          rcases List.mem_append.mp hp with hp | hp
          · exact i7 p hp
          · rw [List.mem_singleton.mp hp]
            exact hhost
        · simp only [List.map_append, List.map_cons, List.map_nil, List.append_assoc,
            List.singleton_append]
          rw [List.nodup_middle]
          exact List.nodup_cons.mpr ⟨fun hc => (List.mem_append.mp hc).elim
            (fun hc => hnp hc) (fun hc => hnq hc), i8⟩
        · intro u hu
          simp only [List.map_append, List.map_cons, List.map_nil, List.append_assoc,
            List.singleton_append] at hu
          show u ∈ st.visited
          rcases List.mem_append.mp hu with hu | hu
          · exact i9 u (List.mem_append.mpr (Or.inl hu))
          · rcases List.mem_cons.mp hu with hu | hu
            · rw [hu]; exact hvis
            · exact i9 u (List.mem_append.mpr (Or.inr hu))
      show Inv cfg start_url
        (if item.depth < cfg.max_depth then
          enqueueLinks cfg (item.depth + 1) item.base (extract_links item.base html) 0
            { st with
              now := st.now + d,
              pages := st.pages ++ [⟨item.url,
                pyOr (extract_title html) "Untitled Page",
                pyOr (extract_text_content item.url html)
                  ("Unable to extract text content from " ++ item.url)⟩] }
        else
          { st with
            now := st.now + d,
            pages := st.pages ++ [⟨item.url,
              pyOr (extract_title html) "Untitled Page",
              pyOr (extract_text_content item.url html)
                ("Unable to extract text content from " ++ item.url)⟩] })
      generalize hgen : ({ st with
            now := st.now + d,
            pages := st.pages ++ [⟨item.url,
              pyOr (extract_title html) "Untitled Page",
              pyOr (extract_text_content item.url html)
                ("Unable to extract text content from " ++ item.url)⟩] } : CrawlState)
          = st2 at hInv2 ⊢
      by_cases hdep : item.depth < cfg.max_depth
      · simp only [hdep, if_true]
        obtain ⟨hp, hn, hpt, new, hq, he, hprops, hnd, hmono, hviss⟩ :=
          enqueueLinks_spec cfg (item.depth + 1) item.base
            (extract_links item.base html) 0 st2
        obtain ⟨j1, j2, j3, j4, j5, j6, j7, j8, j9⟩ := hInv2
        refine ⟨?_, ?_, ?_, ?_, ?_, ?_, ?_, ?_, ?_⟩
        · rw [he, hq, hpt, j1]
          simp [List.append_assoc]
        · intro it hit
          rw [he] at hit
          rcases List.mem_append.mp hit with hit | hit
          · exact j2 it hit
          · obtain ⟨hd, _, _, _⟩ := hprops it hit
            rw [hd]
            exact ⟨by omega, Or.inl (by omega)⟩
        · rw [hp]; exact j3
        · rw [hp]; exact j4
        · intro it hit
          rw [he] at hit
          rcases List.mem_append.mp hit with hit | hit
          · exact j5 it hit
          · obtain ⟨_, hb, _, _⟩ := hprops it hit
            rw [hb]; exact hbase
        · intro it hit
          rw [he] at hit
          rcases List.mem_append.mp hit with hit | hit
          · exact j6 it hit
          · obtain ⟨_, _, hl, _⟩ := hprops it hit
            right
            rw [hbase] at hl
            exact extract_links_ok start_url html it.url hl
        · rw [hp]; exact j7
        · rw [hp, hq]
          simp only [List.map_append, ← List.append_assoc]
          rw [List.nodup_append]
          refine ⟨j8, hnd, ?_⟩
          intro u hu hunew
          obtain ⟨it, hit, hitu⟩ := List.mem_map.mp hunew
          exact (hprops it hit).2.2.2 (hitu ▸ j9 u hu)
        · intro u hu
          rw [hp, hq] at hu
          simp only [List.map_append, ← List.append_assoc] at hu
          rcases List.mem_append.mp hu with hu | hu
          · exact hmono u (j9 u hu)
          · obtain ⟨it, hit, hitu⟩ := List.mem_map.mp hu
            exact hitu ▸ hviss it hit
      · simp only [hdep, if_false]
        exact hInv2

/-- Popping the head of the frontier preserves the invariant and yields
the facts `process_page_inv` needs about the popped item. -/
theorem pop_inv (cfg : CrawlConfig) (start_url : String) (st : CrawlState)
    (item : WorkItem) (rest : List WorkItem) (t : Nat)
    (hInv : Inv cfg start_url st) (hq : st.queue = item :: rest) :
    Inv cfg start_url { st with queue := rest, popTrace := st.popTrace ++ [(item, t)] }
    ∧ item.base = start_url
    ∧ (item.url = start_url ∨ LinkOK start_url item.url)
    ∧ 1 ≤ item.depth
    ∧ item.url ∉ st.pages.map Page.url
    ∧ item.url ∉ rest.map WorkItem.url
    ∧ item.url ∈ st.visited := by
  obtain ⟨i1, i2, i3, i4, i5, i6, i7, i8, i9⟩ := hInv
  have hmem : item ∈ st.enqTrace := by
    rw [i1, hq]
    exact List.mem_append.mpr (Or.inr (by simp))
  have h8 : (st.pages.map Page.url ++ (item.url :: rest.map WorkItem.url)).Nodup := by
    rw [hq] at i8
    simpa using i8
  have h8' := List.nodup_middle.mp h8
  have hnotmem : item.url ∉ st.pages.map Page.url ++ rest.map WorkItem.url :=
    (List.nodup_cons.mp h8').1
  refine ⟨⟨?_, i2, i3, i4, i5, i6, i7, ?_, ?_⟩, i5 item hmem, i6 item hmem,
    (i2 item hmem).1, fun hc => hnotmem (List.mem_append.mpr (Or.inl hc)),
    fun hc => hnotmem (List.mem_append.mpr (Or.inr hc)), ?_⟩
  · rw [i1, hq]
    simp
  · exact (List.nodup_cons.mp h8').2
  · intro u hu
    apply i9 u
    rw [hq]
    rcases List.mem_append.mp hu with hu | hu
    · exact List.mem_append.mpr (Or.inl hu)
    · exact List.mem_append.mpr (Or.inr (by simp [hu]))
  · apply i9 item.url
    rw [hq]
    exact List.mem_append.mpr (Or.inr (by simp))

/-- `crawl_worker` preserves the invariant. -/
theorem crawl_worker_inv (cfg : CrawlConfig) (net : String → FetchOutcome)
    (start_url : String) :
    ∀ fuel st, Inv cfg start_url st → Inv cfg start_url (crawl_worker cfg net fuel st) := by
  intro fuel
  induction fuel with
  | zero => intro st h; exact h
  | succ fuel ih =>
    intro st hInv
    rw [crawl_worker]
    cases hq : st.queue with
    | nil => exact hInv
    | cons item rest =>
      by_cases hlen : st.pages.length < cfg.max_pages
      · simp only [hlen, if_true]
        obtain ⟨hInv1, hb, hu, hd, hnp, hnq, hv⟩ :=
          pop_inv cfg start_url st item rest st.now hInv hq
        exact ih _ (Inv_now _ _ _ _
          (process_page_inv cfg net start_url _ item hInv1 hb hu hd hnp hnq hv))
      · simp only [hlen, if_false]
        exact hInv

/-- The outer crawl loop preserves the invariant. -/
theorem crawlLoop_inv (cfg : CrawlConfig) (net : String → FetchOutcome)
    (start_url : String) (t0 : Nat) :
    ∀ fuel st, Inv cfg start_url st →
      Inv cfg start_url (crawlLoop cfg net t0 fuel st) := by
  intro fuel
  induction fuel with
  | zero => intro st h; exact h
  | succ fuel ih =>
    intro st hInv
    rw [crawlLoop]
    by_cases hc : st.queue ≠ [] ∧ st.pages.length < cfg.max_pages
    · rw [if_pos hc]
      by_cases ht : st.now - t0 > cfg.timeout
      · rw [if_pos ht]
        exact hInv
      · rw [if_neg ht]
        exact ih _ (crawl_worker_inv cfg net start_url (fuel + 1) st hInv)
    · rw [if_neg hc]
      exact hInv

/-- The invariant holds of the final state of every crawl. -/
theorem crawlFinal_inv (cfg : CrawlConfig) (net : String → FetchOutcome)
    (start_url : String) (t0 fuel : Nat) :
    Inv cfg start_url (crawlFinal cfg net start_url t0 fuel) := by
  rw [crawlFinal]
  dsimp only
  apply crawlLoop_inv
  apply process_page_inv cfg net start_url _ ⟨start_url, 1, start_url⟩
  · refine ⟨by simp, ?_, by simp, by simp, ?_, ?_, by simp, by simp, by simp⟩
    · intro it hit
      rw [List.mem_singleton.mp hit]
      exact ⟨le_refl 1, Or.inr rfl⟩
    · intro it hit
      rw [List.mem_singleton.mp hit]
    · intro it hit
      rw [List.mem_singleton.mp hit]
      exact Or.inl rfl
  · rfl
  · exact Or.inl rfl
  · exact le_refl 1
  · simp
  · simp
  · simp

theorem crawlLoop_empty (cfg : CrawlConfig) (net : String → FetchOutcome) (t0 : Nat)
    (fuel : Nat) (st : CrawlState) (h : st.queue = []) :
    crawlLoop cfg net t0 fuel st = st := by
  cases fuel with
  | zero => rfl
  | succ fuel =>
    rw [crawlLoop, if_neg]
    simp [h]

theorem process_page_err (cfg : CrawlConfig) (net : String → FetchOutcome)
    (st : CrawlState) (item : WorkItem) (m : String) (d : Nat)
    (hmd : requests_get net item.url = FetchOutcome.err m d) :
    process_page cfg net st item = st ∨
    process_page cfg net st item = { st with now := st.now + d } := by
  rw [process_page]
  by_cases hfull : st.pages.length ≥ cfg.max_pages
  · left
    rw [if_pos hfull]
  · right
    rw [if_neg hfull, hmd]

/-! ### The claims -/

/-- C1: for every crawl with `max_pages ≥ 1` the returned page list is
non-empty and has at most `max_pages` entries, whatever the network does. -/
theorem crawl_result_bounded (cfg : CrawlConfig) (net : String → FetchOutcome)
    (start_url : String) (t0 fuel : Nat) (h : 1 ≤ cfg.max_pages) :
    1 ≤ (crawl cfg net start_url t0 fuel).length ∧
    (crawl cfg net start_url t0 fuel).length ≤ cfg.max_pages := by
  obtain ⟨_, _, i3, _⟩ := crawlFinal_inv cfg net start_url t0 fuel
  simp only [crawl]
  by_cases hp : (crawlFinal cfg net start_url t0 fuel).pages = []
  · rw [if_pos hp]
    exact ⟨le_refl 1, h⟩
  · rw [if_neg hp]
    refine ⟨?_, i3⟩
    have := List.length_pos.mpr hp
    omega

/-- Witness for C1. -/
theorem crawl_result_bounded_witness :
    1 ≤ cfgStd.max_pages ∧
    (1 ≤ (crawl cfgStd netFragment "http://h/p#a" 0 10).length ∧
      (crawl cfgStd netFragment "http://h/p#a" 0 10).length ≤ cfgStd.max_pages) :=
  ⟨by decide, crawl_result_bounded cfgStd netFragment "http://h/p#a" 0 10 (by decide)⟩

/-- C2 counterexample: when the seed request fails with a network error,
the single returned record's title is "No content found", not the claimed
"Failed to load page" (that branch of `crawl` is unreachable because
`process_page` swallows its own exceptions). -/
theorem seed_failure_sentinel_counterexample :
    (crawl cfgStd netFail "http://example.com/" 0 10).map Page.title = ["No content found"] ∧
    "No content found" ≠ "Failed to load page" := by
  constructor
  · rfl
  · decide

/-- C2 amended: when the seed request fails entirely, the result is
exactly one record with title "No content found" and the fixed
placeholder content (which does not mention the error). -/
theorem seed_failure_yields_no_content_record (cfg : CrawlConfig)
    (net : String → FetchOutcome) (start_url : String) (t0 fuel : Nat)
    (h : ∃ m d, requests_get net start_url = FetchOutcome.err m d) :
    crawl cfg net start_url t0 fuel =
      [⟨start_url, "No content found",
        "No content could be extracted from this website."⟩] := by
  obtain ⟨m, d, hmd⟩ := h
  have hfin : (crawlFinal cfg net start_url t0 fuel).pages = [] := by
    rw [crawlFinal]
    dsimp only
    rcases process_page_err cfg net _ ⟨start_url, 1, start_url⟩ m d hmd with hpe | hpe <;>
      rw [hpe] <;> rw [crawlLoop_empty cfg net t0 fuel _ rfl]
  simp only [crawl]
  rw [if_pos hfin]

/-- Witness for C2's amended theorem. -/
theorem seed_failure_yields_no_content_record_witness :
    (∃ m d, requests_get netFail "http://example.com/" = FetchOutcome.err m d) ∧
    crawl cfgStd netFail "http://example.com/" 0 10 =
      [⟨"http://example.com/", "No content found",
        "No content could be extracted from this website."⟩] :=
  ⟨⟨"connection refused", 1, by decide⟩,
    seed_failure_yields_no_content_record cfgStd netFail "http://example.com/" 0 10
      ⟨"connection refused", 1, by decide⟩⟩

/-- C3: every record in a crawl result has non-empty content (a
placeholder is substituted when extraction yields nothing). -/
theorem crawl_content_nonempty (cfg : CrawlConfig) (net : String → FetchOutcome)
    (start_url : String) (t0 fuel : Nat) (p : Page)
    (hp : p ∈ crawl cfg net start_url t0 fuel) : p.content ≠ "" := by
  obtain ⟨_, _, _, i4, _⟩ := crawlFinal_inv cfg net start_url t0 fuel
  simp only [crawl] at hp
  by_cases hempty : (crawlFinal cfg net start_url t0 fuel).pages = []
  · rw [if_pos hempty] at hp
    rw [List.mem_singleton.mp hp]
    exact (by decide : ("No content could be extracted from this website." : String) ≠ "")
  · rw [if_neg hempty] at hp
    exact i4 p hp

/-- Witness for C3. -/
theorem crawl_content_nonempty_witness :
    (⟨"http://h/p#a", "T", "body"⟩ : Page) ∈ crawl cfgStd netFragment "http://h/p#a" 0 10 ∧
    (⟨"http://h/p#a", "T", "body"⟩ : Page).content ≠ "" :=
  ⟨by decide,
    crawl_content_nonempty cfgStd netFragment "http://h/p#a" 0 10
      ⟨"http://h/p#a", "T", "body"⟩ (by decide)⟩

/-- C4: every record of a crawl is on the seed's host, and `is_valid_url`
accepts a candidate only when it has a host equal to the base's host. -/
theorem crawl_same_host (cfg : CrawlConfig) (net : String → FetchOutcome)
    (start_url : String) (t0 fuel : Nat) :
    (∀ p ∈ crawl cfg net start_url t0 fuel,
      (urlparse p.url "").netloc = (urlparse start_url "").netloc) ∧
    (∀ u b : String, is_valid_url u b = true →
      (urlparse u "").netloc ≠ "" ∧ (urlparse u "").netloc = (urlparse b "").netloc) := by
  constructor
  · intro p hp
    obtain ⟨_, _, _, _, _, _, i7, _⟩ := crawlFinal_inv cfg net start_url t0 fuel
    simp only [crawl] at hp
    by_cases hempty : (crawlFinal cfg net start_url t0 fuel).pages = []
    · rw [if_pos hempty] at hp
      rw [List.mem_singleton.mp hp]
    · rw [if_neg hempty] at hp
      exact i7 p hp
  · exact fun u b h => is_valid_url_eq u b h

/-- Witness for C4. -/
theorem crawl_same_host_witness :
    (⟨"http://h/p", "T2", "body2"⟩ : Page) ∈ crawl cfgStd netFragment "http://h/p#a" 0 10 ∧
    (urlparse "http://h/p" "").netloc = (urlparse "http://h/p#a" "").netloc :=
  ⟨by decide,
    (crawl_same_host cfgStd netFragment "http://h/p#a" 0 10).1
      ⟨"http://h/p", "T2", "body2"⟩ (by decide)⟩

/-- C5 counterexample: a seed URL carrying a fragment is enqueued without
canonicalization, so its canonical form can be crawled again — two
records whose canonicalized URLs coincide. -/
theorem canonical_dedup_counterexample :
    (crawl cfgStd netFragment "http://h/p#a" 0 10).map Page.url =
      ["http://h/p#a", "http://h/p"] ∧
    clean_url "http://h/p#a" = clean_url "http://h/p" ∧
    "http://h/p#a" ≠ "http://h/p" := by
  refine ⟨rfl, rfl, by decide⟩

/-- C5 amended: no URL appears twice in the result as a literal string
(the visited-set dedups exact URLs); canonicalized uniqueness can fail
only through the uncanonicalized seed. -/
theorem crawl_urls_pairwise_distinct (cfg : CrawlConfig) (net : String → FetchOutcome)
    (start_url : String) (t0 fuel : Nat) :
    (crawl cfg net start_url t0 fuel).Pairwise (fun p q => p.url ≠ q.url) := by
  obtain ⟨_, _, _, _, _, _, _, i8, _⟩ := crawlFinal_inv cfg net start_url t0 fuel
  simp only [crawl]
  by_cases hempty : (crawlFinal cfg net start_url t0 fuel).pages = []
  · rw [if_pos hempty]
    simp
  · rw [if_neg hempty]
    have h1 : (List.map Page.url (crawlFinal cfg net start_url t0 fuel).pages).Nodup :=
      List.Nodup.of_append_left i8
    exact List.pairwise_map.mp h1

/-- C6: every work item that ever enters the frontier (and hence every
fetched item) has depth between 1 and `max_depth`, and a fetch at
`max_depth` produces no new frontier items. -/
theorem depth_bounds (cfg : CrawlConfig) (net : String → FetchOutcome)
    (start_url : String) (t0 fuel : Nat) (h : 1 ≤ cfg.max_depth) :
    (∀ it ∈ (crawlFinal cfg net start_url t0 fuel).enqTrace,
      1 ≤ it.depth ∧ it.depth ≤ cfg.max_depth) ∧
    (∀ it t, (it, t) ∈ (crawlFinal cfg net start_url t0 fuel).popTrace →
      1 ≤ it.depth ∧ it.depth ≤ cfg.max_depth) ∧
    (∀ st it, it.depth = cfg.max_depth →
      (process_page cfg net st it).enqTrace = st.enqTrace) := by
  obtain ⟨i1, i2, _⟩ := crawlFinal_inv cfg net start_url t0 fuel
  have hmain : ∀ it ∈ (crawlFinal cfg net start_url t0 fuel).enqTrace,
      1 ≤ it.depth ∧ it.depth ≤ cfg.max_depth := by
    intro it hit
    obtain ⟨h1, h2⟩ := i2 it hit
    rcases h2 with h2 | h2
    · exact ⟨h1, h2⟩
    · exact ⟨h1, by omega⟩
  refine ⟨hmain, ?_, ?_⟩
  · intro it t hit
    apply hmain
    rw [i1]
    exact List.mem_append.mpr (Or.inl (List.mem_map.mpr ⟨(it, t), hit, rfl⟩))
  · intro st it hd
    rw [process_page]
    by_cases hfull : st.pages.length ≥ cfg.max_pages
    · rw [if_pos hfull]
    · rw [if_neg hfull]
      cases hreq : requests_get net it.url with
      | err m d => rfl
      | ok html d =>
        have hdep : ¬it.depth < cfg.max_depth := by
          rw [hd]
          exact lt_irrefl _
        dsimp only
        rw [if_neg hdep]

/-- Witness for C6. -/
theorem depth_bounds_witness :
    1 ≤ cfgStd.max_depth ∧
    (1 ≤ (⟨"http://h/p", 2, "http://h/p#a"⟩ : WorkItem).depth ∧
      (⟨"http://h/p", 2, "http://h/p#a"⟩ : WorkItem).depth ≤ cfgStd.max_depth) :=
  ⟨by decide,
    (depth_bounds cfgStd netFragment "http://h/p#a" 0 10 (by decide)).1 _ (by decide)⟩

/-- C7 counterexample: the relative link "sub" on the non-seed page
`http://h/dir/page` is resolved against the carried seed URL, producing
the candidate `http://h/sub`; resolving against the page's own URL would
give `http://h/dir/sub`, which never enters the frontier. -/
theorem resolve_base_counterexample :
    (crawlFinal cfgStd netRelative "http://h/" 0 10).enqTrace.map WorkItem.url =
      ["http://h/", "http://h/dir/page", "http://h/sub"] ∧
    urljoin "http://h/dir/page" "sub" = "http://h/dir/sub" ∧
    "http://h/sub" ≠ "http://h/dir/sub" := by
  refine ⟨rfl, rfl, by decide⟩

/-- C7 amended: link discovery resolves every href against the WorkItem's
carried `base_url` (the seed), not against the fetched page's own URL:
every item enqueued by `process_page` has a URL of the form
`clean_url (urljoin item.base href)` for some href of the page. -/
theorem links_resolved_against_carried_base (cfg : CrawlConfig)
    (net : String → FetchOutcome) (st : CrawlState) (item : WorkItem)
    (html : Html) (d : Nat)
    (hok : requests_get net item.url = FetchOutcome.ok html d) :
    ∀ it2 ∈ (process_page cfg net st item).enqTrace,
      it2 ∈ st.enqTrace ∨ ∃ href ∈ html.hrefs,
        it2.url = clean_url (urljoin item.base href) ∧
        it2.depth = item.depth + 1 ∧ it2.base = item.base := by
  intro it2 hit2
  rw [process_page] at hit2
  by_cases hfull : st.pages.length ≥ cfg.max_pages
  · rw [if_pos hfull] at hit2
    exact Or.inl hit2
  · rw [if_neg hfull, hok] at hit2
    dsimp only at hit2
    by_cases hdep : item.depth < cfg.max_depth
    · rw [if_pos hdep] at hit2
      obtain ⟨_, _, _, new, _, he, hprops, _, _, _⟩ :=
        enqueueLinks_spec cfg (item.depth + 1) item.base
          (extract_links item.base html) 0
          { st with
            now := st.now + d,
            pages := st.pages ++ [⟨item.url,
              pyOr (extract_title html) "Untitled Page",
              pyOr (extract_text_content item.url html)
                ("Unable to extract text content from " ++ item.url)⟩] }
      rw [he] at hit2
      rcases List.mem_append.mp hit2 with hit2 | hit2
      · exact Or.inl hit2
      · obtain ⟨hd2, hb2, hl2, _⟩ := hprops it2 hit2
        obtain ⟨href, hhref, hu2, _⟩ := extract_links_mem item.base html it2.url hl2
        exact Or.inr ⟨href, hhref, hu2, hd2, hb2⟩
    · rw [if_neg hdep] at hit2
      exact Or.inl hit2

/-- Witness for C7's amended theorem. -/
theorem links_resolved_against_carried_base_witness :
    requests_get netRelative "http://h/dir/page" =
      FetchOutcome.ok ⟨some "y", "", some "t2", ["sub"]⟩ 1 ∧
    ((⟨"http://h/sub", 3, "http://h/"⟩ : WorkItem) ∈
      (process_page cfgStd netRelative ⟨[], [], [], 0, [], []⟩
        ⟨"http://h/dir/page", 2, "http://h/"⟩).enqTrace) ∧
    ((⟨"http://h/sub", 3, "http://h/"⟩ : WorkItem) ∈ ([] : List WorkItem) ∨
      ∃ href ∈ (⟨some "y", "", some "t2", ["sub"]⟩ : Html).hrefs,
        "http://h/sub" = clean_url (urljoin "http://h/" href) ∧
        3 = 2 + 1 ∧ "http://h/" = "http://h/") :=
  ⟨by decide, by decide,
    links_resolved_against_carried_base cfgStd netRelative
      ⟨[], [], [], 0, [], []⟩ ⟨"http://h/dir/page", 2, "http://h/"⟩
      ⟨some "y", "", some "t2", ["sub"]⟩ 1 (by decide) _ (by decide)⟩

/-- C8: evaluation exhibiting the timeout bug.  With `timeout = 5`, the
seed is popped at time 0 and the two discovered items at times 1 and 11:
the third pop happens after the deadline has passed, because
`crawl_worker` drains the queue without rechecking the clock (the check
in `crawl` runs only between `crawl_worker` calls). -/
theorem timeout_ignored_by_worker_eval :
    (crawlFinal cfgTimeout netSlow "http://h/a" 0 10).popTrace.map (fun e => e.2) =
      [0, 1, 11] ∧
    (⟨⟨"http://h/c", 2, "http://h/a"⟩, 11⟩ ∈
      (crawlFinal cfgTimeout netSlow "http://h/a" 0 10).popTrace) ∧
    cfgTimeout.timeout < 11 ∧
    (crawl cfgTimeout netSlow "http://h/a" 0 10).length = 3 := by
  refine ⟨rfl, by decide, by decide, rfl⟩

/-- C10: with the network behaviour fixed, `crawl` is deterministic
(pointwise-equal oracles give identical results), and the crawl is
FIFO: the pop order extended by the remaining queue is exactly the
enqueue order — items are processed one at a time in enqueue order. -/
theorem crawl_deterministic_fifo (cfg : CrawlConfig) (net1 net2 : String → FetchOutcome)
    (start_url : String) (t0 fuel : Nat) (h : ∀ u, net1 u = net2 u) :
    crawl cfg net1 start_url t0 fuel = crawl cfg net2 start_url t0 fuel ∧
    (crawlFinal cfg net1 start_url t0 fuel).popTrace.map Prod.fst ++
      (crawlFinal cfg net1 start_url t0 fuel).queue =
      (crawlFinal cfg net1 start_url t0 fuel).enqTrace := by
  have hnet : net1 = net2 := funext h
  subst hnet
  exact ⟨rfl, ((crawlFinal_inv cfg net1 start_url t0 fuel).1).symm⟩

/-- Witness for C10. -/
theorem crawl_deterministic_fifo_witness :
    crawl cfgStd netFragment "http://h/p#a" 0 10 =
      crawl cfgStd netFragment "http://h/p#a" 0 10 ∧
    (crawlFinal cfgStd netFragment "http://h/p#a" 0 10).popTrace.map Prod.fst ++
      (crawlFinal cfgStd netFragment "http://h/p#a" 0 10).queue =
      (crawlFinal cfgStd netFragment "http://h/p#a" 0 10).enqTrace :=
  crawl_deterministic_fifo cfgStd netFragment netFragment "http://h/p#a" 0 10
    (fun _ => rfl)

/-- C9: the canonicalization of link discovery strips fragment and query:
appending a fragment part or a query part to any URL string does not
change its canonical form, so `p`, `p#f` and `p?q` collapse to one
candidate. -/
theorem clean_url_strips_fragment_query (p f q : String) :
    clean_url (p ++ "#" ++ f) = clean_url p ∧
    clean_url (p ++ "?" ++ q) = clean_url p := by
  obtain ⟨h1, h2, h3⟩ := urlparse_append_frag p f
  obtain ⟨g1, g2, g3⟩ := urlparse_append_query p q
  constructor
  · rw [clean_url, clean_url, h1, h2, h3]
  · rw [clean_url, clean_url, g1, g2, g3]

end WebSage
